import Mathlib

/-!
Verification of the MAIAR agent runtime core (packages/core/src/runtime).

The definitions below are a shallow embedding of the TypeScript source:
- `Runtime.getObject` (runtime/index.ts): the schema-validated, retry-bounded
  structured-output protocol;
- `Runtime.evaluatePipeline` / `Runtime.evaluatePipelineModification`:
  pipeline generation and modification with local error recovery;
- `Runtime.executePipeline` and `PluginRegistry.getPlugin`: step execution;
- `Runtime.pushToContextChain`: the context-chain append/merge operation;
- `ModelManager`: capability alias registration and resolution, provider
  init and health checks;
- `Runtime.init`: the startup capability checks;
- the event queue / evaluation loop, as a labelled transition system.

Model outputs, plugin executors and memory calls are external effects; they
are embedded as explicit oracles (functions from attempt/step indices to
outcomes) so that every control path of the source is represented.
-/

namespace Maiar

/-- A pipeline step `{pluginId, action}` (runtime/pipeline/types.ts). -/
structure PipelineStep where
  pluginId : String
  action : String
deriving DecidableEq, Repr

/-- The pipeline-modification decision object
`{shouldModify, explanation, modifiedSteps}` (runtime/pipeline/types.ts). -/
structure PipelineModification where
  shouldModify : Bool
  explanation : String
  modifiedSteps : Option (List PipelineStep)
deriving DecidableEq, Repr

/-- A context item `{id, pluginId, action, type, content, timestamp, ...}`
(runtime/pipeline/agent.ts).  The open-ended extra payload fields of the
TypeScript object (e.g. `error`, `failedStep`, executor data spread into the
item) are modelled as an association list `extras`. -/
structure BaseContextItem where
  id : String
  pluginId : String
  action : String
  type : String
  content : String
  timestamp : Nat
  extras : List (String × String)
deriving DecidableEq, Repr

/-- The per-event agent context `{contextChain, conversationId, ...}`. -/
structure AgentCtx where
  contextChain : List BaseContextItem
  conversationId : Option String
deriving DecidableEq, Repr

/-- Result object returned by a plugin executor `{success, data?, error?}`. -/
structure PluginResult where
  success : Bool
  data : Option (List (String × String))
  error : Option String
deriving DecidableEq, Repr

/-- A registered plugin.  `execute` is the executor dispatch
`plugin.execute(action, context)`; a thrown exception is `Except.error`. -/
structure PluginM where
  id : String
  name : String
  description : String
  requiredCapabilities : List String
  execute : String → List BaseContextItem → Except String PluginResult

/-- A registered model provider; `initResult` and `healthResult` are the
outcomes of its `init()` and `checkHealth()` calls. -/
structure ModelProviderM where
  id : String
  initResult : Except String Unit
  healthResult : Except String Unit

/-! ## Structured object retrieval protocol (`Runtime.getObject`) -/

/-- `config?.maxRetries || 3` — `||` takes the default when `maxRetries`
is absent or `0` (falsy). -/
def resolveMaxRetries : Option Nat → Nat
  | none => 3
  | some 0 => 3
  | some (n + 1) => n + 1

/-- One run of the retry loop of `Runtime.getObject` (runtime/index.ts).

`parse` is the composite `extractJson` / `JSON.parse` / `schema.parse`
pipeline applied to a raw model response: `some v` when the response yields
a schema-conforming value `v`, `none` when extraction, parsing or schema
validation fails.  `exec` gives the outcome of the text-generation
capability call on a given attempt index (`Except.error` = the call threw).

The loop state `lastResponse` matters: when the capability call throws on a
non-final attempt, the source falls through to the parse block and re-parses
the *previous* response.  Returns the outcome and the number of loop
iterations (attempts) performed. -/
def getObjectGo (parse : String → Option V) (exec : Nat → Except String String) :
    (fuel : Nat) → (attempt : Nat) → (lastResponse : String) →
    Except String V × Nat
  | 0, _, _ =>
    -- the `for` loop ended with no return: unreachable from `getObject`
    -- because `resolveMaxRetries` is positive
    (Except.error "Failed to get valid response after retries", 0)
  | fuel + 1, attempt, lastResponse =>
    match exec attempt with
    | Except.error e =>
      if fuel = 0 then
        -- `if (attempt === MAX_RETRIES - 1) throw err;`
        (Except.error e, 1)
      else
        -- fall through to the parse block with the stale `lastResponse`
        match parse lastResponse with
        | some v => (Except.ok v, 1)
        | none =>
          let r := getObjectGo parse exec fuel (attempt + 1) lastResponse
          (r.1, r.2 + 1)
    | Except.ok resp =>
      match parse resp with
      | some v => (Except.ok v, 1)
      | none =>
        if fuel = 0 then
          -- `if (attempt === MAX_RETRIES - 1) throw err;`
          (Except.error ("failed to parse JSON: " ++ resp), 1)
        else
          let r := getObjectGo parse exec fuel (attempt + 1) resp
          (r.1, r.2 + 1)

/-- `Runtime.getObject(schema, prompt, config)`: run the retry loop with
`MAX_RETRIES = config?.maxRetries || 3`, starting from attempt `0` with an
empty `lastResponse`. -/
def getObject (parse : String → Option V) (exec : Nat → Except String String)
    (maxRetries : Option Nat) : Except String V × Nat :=
  getObjectGo parse exec (resolveMaxRetries maxRetries) 0 ""

theorem getObjectGo_ok_conforms (parse : String → Option V)
    (exec : Nat → Except String String) :
    ∀ fuel attempt lastResponse v,
      (getObjectGo parse exec fuel attempt lastResponse).1 = Except.ok v →
      ∃ s, parse s = some v := by
  intro fuel
  induction fuel with
  | zero => intro attempt lastResponse v h; simp [getObjectGo] at h
  | succ n ih =>
    intro attempt lastResponse v h
    unfold getObjectGo at h
    cases hexec : exec attempt with
    | error e =>
      simp only [hexec] at h
      by_cases hn : n = 0
      · simp [hn] at h
      · simp only [if_neg hn] at h
        cases hp : parse lastResponse with
        | some w =>
          simp only [hp] at h
          exact ⟨lastResponse, by rw [hp]; exact congrArg some (Except.ok.inj h)⟩
        | none =>
          simp only [hp] at h
          exact ih (attempt + 1) lastResponse v h
    | ok resp =>
      simp only [hexec] at h
      cases hp : parse resp with
      | some w =>
        simp only [hp] at h
        exact ⟨resp, by rw [hp]; exact congrArg some (Except.ok.inj h)⟩
      | none =>
        simp only [hp] at h
        by_cases hn : n = 0
        · simp [hn] at h
        · simp only [if_neg hn] at h
          exact ih (attempt + 1) resp v h

theorem getObjectGo_error_attempts (parse : String → Option V)
    (exec : Nat → Except String String) :
    ∀ fuel attempt lastResponse e,
      (getObjectGo parse exec fuel attempt lastResponse).1 = Except.error e →
      (getObjectGo parse exec fuel attempt lastResponse).2 = fuel := by
  intro fuel
  induction fuel with
  | zero => intro attempt lastResponse e _; simp [getObjectGo]
  | succ n ih =>
    intro attempt lastResponse e h
    unfold getObjectGo at h ⊢
    cases hexec : exec attempt with
    | error e2 =>
      simp only [hexec] at h ⊢
      by_cases hn : n = 0
      · simp [hn]
      · simp only [if_neg hn] at h ⊢
        cases hp : parse lastResponse with
        | some w => simp [hp] at h
        | none =>
          simp only [hp] at h ⊢
          have := ih (attempt + 1) lastResponse e h
          simp [this]
    | ok resp =>
      simp only [hexec] at h ⊢
      cases hp : parse resp with
      | some w => simp [hp] at h
      | none =>
        simp only [hp] at h ⊢
        by_cases hn : n = 0
        · simp [hn]
        · simp only [if_neg hn] at h ⊢
          have := ih (attempt + 1) resp e h
          simp [this]

/-- C1: `getObject` either returns a value that parses successfully against
the schema (it is the output of a successful `schema.parse`, so it conforms)
or raises after exactly `MAX_RETRIES` attempts, where the retry bound
defaults to `3`; it never returns a non-conforming value. -/
theorem getObject_conforms_or_raises_after_maxRetries
    (parse : String → Option V) (exec : Nat → Except String String)
    (maxRetries : Option Nat) :
    (∀ v, (getObject parse exec maxRetries).1 = Except.ok v →
        ∃ s, parse s = some v) ∧
    (∀ e, (getObject parse exec maxRetries).1 = Except.error e →
        (getObject parse exec maxRetries).2 = resolveMaxRetries maxRetries) ∧
    resolveMaxRetries none = 3 := by
  refine ⟨?_, ?_, rfl⟩
  · intro v h
    exact getObjectGo_ok_conforms parse exec _ 0 "" v h
  · intro e h
    exact getObjectGo_error_attempts parse exec _ 0 "" e h

/-- Witness for C1: with a model that always answers `"nope"` and a schema
that accepts only `"yes"`, `getObject` raises after exactly 3 attempts; with
a model that answers `"yes"`, the returned value conforms. -/
theorem getObject_conforms_or_raises_after_maxRetries_witness :
    (∃ s, (fun r : String => if r = "yes" then some r else none) s =
      some "yes") ∧
    (getObject (fun r => if r = "yes" then (some r : Option String) else none)
        (fun _ => Except.ok "nope") none).2 = 3 := by
  constructor
  · exact (getObject_conforms_or_raises_after_maxRetries
      (fun r => if r = "yes" then some r else none)
      (fun _ => Except.ok "yes") none).1 "yes" rfl
  · exact (getObject_conforms_or_raises_after_maxRetries
      (fun r => if r = "yes" then some r else none)
      (fun _ => Except.ok "nope") none).2.1
      ("failed to parse JSON: " ++ "nope") rfl

/-! ## Pipeline generation and modification (`Runtime.evaluatePipeline`,
`Runtime.evaluatePipelineModification`) -/

/-- `Runtime.evaluatePipeline`: generate a pipeline via `getObject` with the
pipeline schema; the surrounding `try/catch` returns the empty pipeline `[]`
on any error (the templates are pure string builders and the logger calls do
not throw, so the only failing operation in the `try` block is `getObject`).
The generation call passes no `maxRetries`, so the default applies. -/
def evaluatePipeline (parse : String → Option (List PipelineStep))
    (exec : Nat → Except String String) : List PipelineStep :=
  match (getObject parse exec none).1 with
  | Except.ok pipeline => pipeline
  | Except.error _ => []

/-- The `catch` branch of `Runtime.evaluatePipelineModification`: an error
from `getObject` is recovered into the "no change" decision. -/
def recoverModification :
    Except String PipelineModification → PipelineModification
  | Except.ok m => m
  | Except.error _ =>
    { shouldModify := false
      explanation := "Error evaluating pipeline modification"
      modifiedSteps := none }

/-- `Runtime.evaluatePipelineModification`: obtain a modification decision
via `getObject` with the modification schema, recovering errors into the
"no change" decision. -/
def evaluatePipelineModification (parse : String → Option PipelineModification)
    (exec : Nat → Except String String) : PipelineModification :=
  recoverModification (getObject parse exec none).1

/-! ## Plugin registry (`PluginRegistry`, managers/plugin.ts) -/

/-- `PluginRegistry.getPlugin(id)`: a lookup in the registry map.  Although
its TypeScript signature is `Plugin | undefined`, the function *throws* when
the id is absent (managers/plugin.ts lines 70-89), with a message
enumerating the registered ids. -/
def getPlugin (plugins : List PluginM) (id : String) : Except String PluginM :=
  match plugins.find? (fun p => p.id == id) with
  | some p => Except.ok p
  | none =>
    Except.error ("Plugin ID " ++ id ++ " not found. Available plugins: " ++
      String.intercalate ", " (plugins.map (fun p => p.id)))

/-! ## Pipeline execution (`Runtime.executePipeline`) -/

/-- The splice applied when a modification is accepted:
`currentPipeline = [...currentPipeline.slice(0, currentStepIndex + 1),
...modification.modifiedSteps]`. -/
def applyModification (pipeline : List PipelineStep) (currentStepIndex : Nat)
    (modifiedSteps : List PipelineStep) : List PipelineStep :=
  pipeline.take (currentStepIndex + 1) ++ modifiedSteps

/-- The error context item built for an invalid (undefined) pipeline step. -/
def invalidStepItem (now : Nat) : BaseContextItem :=
  { id := "error-" ++ toString now
    pluginId := "runtime"
    action := "invalid_step"
    type := "error"
    content := "Invalid step encountered in pipeline"
    timestamp := now
    extras := [("error", "Invalid step encountered in pipeline")] }

/-- The error context item appended when a step's executor fails or throws
(`result.error || "Unknown error"` / the thrown message). -/
def stepErrorItem (step : PipelineStep) (msg : String) (now : Nat) :
    BaseContextItem :=
  { id := "error-" ++ toString now
    pluginId := step.pluginId
    action := step.action
    type := "error"
    content := msg
    timestamp := now
    extras := [("error", msg), ("failedStep", step.pluginId ++ ":" ++ step.action)] }

/-- A crude model of `JSON.stringify(result.data)` for the data payload. -/
def jsonStringifyFields (fields : List (String × String)) : String :=
  "\x7b" ++ String.intercalate ","
    (fields.map (fun kv => "\x22" ++ kv.1 ++ "\x22:" ++ kv.2)) ++ "\x7d"

/-- The context item appended for a successful executor result with data:
`{id, pluginId, type: action, action, content: JSON.stringify(result.data),
timestamp, ...result.data}`. -/
def dataItem (step : PipelineStep) (data : List (String × String)) (now : Nat) :
    BaseContextItem :=
  { id := step.pluginId ++ "-" ++ toString now
    pluginId := step.pluginId
    action := step.action
    type := step.action
    content := jsonStringifyFields data
    timestamp := now
    extras := data }

/-- The `while` loop of `Runtime.executePipeline` (runtime/index.ts).

`modOracle n` is the outcome of the `getObject` call inside the n-th
`evaluatePipelineModification` (recovered by `recoverModification`, the
faithful `catch`).  `fuel` bounds the number of loop iterations; every
theorem about concrete runs supplies enough fuel.

Key control-flow facts mirrored from the source:
- `pluginRegistry.getPlugin` is called *outside* the per-step `try/catch`,
  and the enclosing `try` has only a `finally`; since `getPlugin` throws on
  a missing plugin, that exception propagates out of `executePipeline` and
  the `if (!plugin)` recovery branch is dead code;
- an executor throw is caught per-step: an error item is appended and the
  loop continues (skipping the modification evaluation for that step);
- an accepted modification replaces everything after the current step. -/
def executePipelineGo (plugins : List PluginM)
    (modOracle : Nat → Except String PipelineModification) :
    (fuel : Nat) → (currentPipeline : List PipelineStep) →
    (currentStepIndex : Nat) → (chain : List BaseContextItem) → (now : Nat) →
    Except String (List BaseContextItem)
  | 0, _, _, _, _ => Except.error "pipeline execution out of fuel"
  | fuel + 1, currentPipeline, currentStepIndex, chain, now =>
    if currentStepIndex < currentPipeline.length then
      match currentPipeline.get? currentStepIndex with
      | none =>
        -- `if (!currentStep)`: append an invalid-step error and continue
        executePipelineGo plugins modOracle fuel currentPipeline
          (currentStepIndex + 1) (chain ++ [invalidStepItem now]) (now + 1)
      | some currentStep =>
        match getPlugin plugins currentStep.pluginId with
        | Except.error e =>
          -- getPlugin throws; nothing catches it here, so it propagates
          Except.error e
        | Except.ok plugin =>
          match plugin.execute currentStep.action chain with
          | Except.error e =>
            -- per-step catch: append an error item and continue
            executePipelineGo plugins modOracle fuel currentPipeline
              (currentStepIndex + 1)
              (chain ++ [stepErrorItem currentStep e now]) (now + 1)
          | Except.ok result =>
            let chain1 :=
              if !result.success then
                chain ++ [stepErrorItem currentStep
                  (result.error.getD "Unknown error") now]
              else
                match result.data with
                | some d => chain ++ [dataItem currentStep d now]
                | none => chain
            let modification :=
              recoverModification (modOracle currentStepIndex)
            let pipeline1 :=
              if modification.shouldModify then
                match modification.modifiedSteps with
                | some mods =>
                  applyModification currentPipeline currentStepIndex mods
                | none => currentPipeline
              else currentPipeline
            executePipelineGo plugins modOracle fuel pipeline1
              (currentStepIndex + 1) chain1 (now + 1)
    else
      Except.ok chain

/-- `Runtime.executePipeline(pipeline, context)`: run the loop from index 0
over the context chain of the current event. -/
def executePipeline (plugins : List PluginM)
    (modOracle : Nat → Except String PipelineModification) (fuel : Nat)
    (pipeline : List PipelineStep) (chain : List BaseContextItem) :
    Except String (List BaseContextItem) :=
  executePipelineGo plugins modOracle fuel pipeline 0 chain 0

/-- C3: any error thrown during pipeline generation makes
`evaluatePipeline` return the empty pipeline instead of raising, and any
error during pipeline-modification evaluation makes
`evaluatePipelineModification` return `shouldModify = false` and
`modifiedSteps = null` instead of raising (both functions are total, so they
never raise). -/
theorem evaluatePipeline_and_modification_fail_open
    (parse : String → Option (List PipelineStep))
    (parseM : String → Option PipelineModification)
    (exec execM : Nat → Except String String) :
    (∀ e, (getObject parse exec none).1 = Except.error e →
      evaluatePipeline parse exec = []) ∧
    (∀ e, (getObject parseM execM none).1 = Except.error e →
      (evaluatePipelineModification parseM execM).shouldModify = false ∧
      (evaluatePipelineModification parseM execM).modifiedSteps = none) := by
  constructor
  · intro e h
    unfold evaluatePipeline
    rw [h]
  · intro e h
    unfold evaluatePipelineModification
    rw [h]
    exact ⟨rfl, rfl⟩

/-- Witness for C3: with a model call that always throws, both the
generation and the modification evaluation recover locally. -/
theorem evaluatePipeline_and_modification_fail_open_witness :
    evaluatePipeline (fun _ => none) (fun _ => Except.error "model down") = []
    ∧ (evaluatePipelineModification (fun _ => none)
        (fun _ => Except.error "model down")).shouldModify = false := by
  have h := evaluatePipeline_and_modification_fail_open
    (fun _ => none) (fun _ => none)
    (fun _ => Except.error "model down") (fun _ => Except.error "model down")
  exact ⟨h.1 "model down" rfl, (h.2 "model down" rfl).1⟩

/-- C2 (refuted; the spec states the intent, the code has a slip):
executing a pipeline whose single step names an unregistered plugin does
*not* append an error context item and continue — `PluginRegistry.getPlugin`
throws, the throw happens outside the per-step `try/catch`, and the
enclosing `try` has only a `finally`, so the exception propagates out of
`executePipeline` and aborts the event with the context chain unchanged.
The `if (!plugin)` recovery branch in `executePipeline` is dead code. -/
theorem missingPlugin_aborts_event :
    executePipeline [] (fun _ => Except.error "unused") 5
        [{ pluginId := "ghost", action := "act" }] [] =
      Except.error "Plugin ID ghost not found. Available plugins: " := by
  rfl

/-- C5: splicing a modification at step index `i` keeps entries `0..i` of
the prior pipeline exactly (pointwise, and as a prefix), and everything
after index `i` is exactly `modifiedSteps` — the previously planned suffix
is discarded. -/
theorem applyModification_splices (p : List PipelineStep) (i : Nat)
    (mods : List PipelineStep) (h : i < p.length) :
    (applyModification p i mods).take (i + 1) = p.take (i + 1) ∧
    (applyModification p i mods).drop (i + 1) = mods ∧
    ∀ j, j ≤ i → (applyModification p i mods)[j]? = p[j]? := by
  have hlen : (p.take (i + 1)).length = i + 1 := by
    rw [List.length_take]; omega
  refine ⟨?_, ?_, ?_⟩
  · have htl := List.take_left (p.take (i + 1)) mods
    rw [hlen] at htl
    exact htl
  · have hdl := List.drop_left (p.take (i + 1)) mods
    rw [hlen] at hdl
    exact hdl
  · intro j hj
    have hj1 : j < (p.take (i + 1)).length := by omega
    calc (applyModification p i mods)[j]?
        = (p.take (i + 1))[j]? := List.getElem?_append_left hj1
      _ = p[j]? := List.getElem?_take_of_lt (by omega)

/-- Witness for C5: splicing `[s4]` at index 1 of `[s1, s2, s3]` keeps
`[s1, s2]` and replaces the tail with `[s4]`. -/
theorem applyModification_splices_witness :
    (applyModification
        [⟨"p1", "a1"⟩, ⟨"p2", "a2"⟩, ⟨"p3", "a3"⟩] 1 [⟨"p4", "a4"⟩]).take 2 =
      ([⟨"p1", "a1"⟩, ⟨"p2", "a2"⟩, ⟨"p3", "a3"⟩] :
        List PipelineStep).take 2 :=
  (applyModification_splices
    [⟨"p1", "a1"⟩, ⟨"p2", "a2"⟩, ⟨"p3", "a3"⟩] 1 [⟨"p4", "a4"⟩]
    (by decide)).1

/-! ## Context chain (`Runtime.pushToContextChain`) -/

/-- JavaScript `Array.prototype.findIndex`, returning `none` instead of
`-1` when no element matches. -/
def findIndex (p : α → Bool) : List α → Option Nat
  | [] => none
  | x :: t => if p x then some 0 else (findIndex p t).map (· + 1)

/-- One field of the object spread `{...existing, ...item}` restricted to
the extras: an entry of `existing` keeps its key (and position) but takes
`item`'s value when `item` also has that key. -/
def overwriteEntry (new : List (String × String)) (p : String × String) :
    String × String :=
  match new.find? (fun q => q.1 == p.1) with
  | some q => (p.1, q.2)
  | none => p

/-- The extras of `{...old, ...new}`: old keys in order with new values
where overridden, then the keys only `new` has, in `new`'s order. -/
def spreadExtras (old new : List (String × String)) :
    List (String × String) :=
  old.map (overwriteEntry new) ++
    new.filter (fun q => !(old.any (fun p => p.1 == q.1)))

/-- The merge `{...existing, ...item}` performed by `pushToContextChain`:
every declared field of `BaseContextItem` is present on `item`, so `item`'s
values win; the open-ended extras are spread key-wise. -/
def mergeItems (old new : BaseContextItem) : BaseContextItem :=
  { id := new.id
    pluginId := new.pluginId
    action := new.action
    type := new.type
    content := new.content
    timestamp := new.timestamp
    extras := spreadExtras old.extras new.extras }

/-- The match predicate of `Runtime.pushToContextChain`:
`existing.pluginId === item.pluginId && existing.action === item.action`. -/
def sameStepKey (item existing : BaseContextItem) : Bool :=
  existing.pluginId == item.pluginId && existing.action == item.action

/-- The body of `Runtime.pushToContextChain` acting on a context chain:
merge into the first entry with the same `(pluginId, action)` pair, else
append. -/
def pushToContextChainList (chain : List BaseContextItem)
    (item : BaseContextItem) : List BaseContextItem :=
  match findIndex (sameStepKey item) chain with
  | some i =>
    match chain[i]? with
    | some old => chain.set i (mergeItems old item)
    | none => chain
  | none => chain ++ [item]

/-- `Runtime.pushToContextChain(item)`: `if (this.context) { ... }` — when
no event is current the call is a silent no-op. -/
def pushToContextChainR (current : Option AgentCtx)
    (item : BaseContextItem) : Option AgentCtx :=
  match current with
  | none => none
  | some ctx =>
    some { ctx with
      contextChain := pushToContextChainList ctx.contextChain item }

theorem beq_comm_str (a b : String) : (a == b) = (b == a) := by
  by_cases h : a = b
  · simp [h]
  · have h2 : ¬b = a := fun hc => h hc.symm
    simp [h, h2]

theorem findIndex_some_lt (p : α → Bool) :
    ∀ (l : List α) (i : Nat), findIndex p l = some i → i < l.length := by
  intro l
  induction l with
  | nil => intro i h; simp [findIndex] at h
  | cons x t ih =>
    intro i h
    by_cases hx : p x
    · simp [findIndex, hx] at h
      simp only [List.length_cons]
      omega
    · simp [findIndex, hx] at h
      obtain ⟨j, hj, rfl⟩ := h
      have := ih j hj
      simp
      omega

theorem lookup_append_or (k : String) (A B : List (String × String)) :
    (A ++ B).lookup k = (A.lookup k).or (B.lookup k) := by
  induction A with
  | nil => simp [Option.or]
  | cons p t ih =>
    obtain ⟨a, b⟩ := p
    by_cases h : k == a
    · simp [List.lookup, h, Option.or]
    · simp only [List.cons_append, List.lookup, h]
      exact ih

theorem find?_key_eq_lookup (k : String) (new : List (String × String)) :
    (new.find? (fun q => q.1 == k)).map Prod.snd = new.lookup k := by
  induction new with
  | nil => rfl
  | cons x t ih =>
    obtain ⟨a, b⟩ := x
    by_cases h : a == k
    · have hk : (k == a) = true := by rw [beq_comm_str]; exact h
      simp [List.find?, List.lookup, h, hk]
    · have hk : (k == a) = false := by rw [beq_comm_str]; simpa using h
      simp only [List.find?, List.lookup]
      simp only [h, hk]
      exact ih

theorem lookup_map_overwrite (k : String)
    (old new : List (String × String)) :
    (old.map (overwriteEntry new)).lookup k =
      match old.lookup k with
      | none => none
      | some v =>
        some (match new.lookup k with | some w => w | none => v) := by
  induction old with
  | nil => rfl
  | cons p t ih =>
    obtain ⟨a, b⟩ := p
    by_cases h : k = a
    · subst h
      cases hf : new.find? (fun q => q.1 == k) with
      | some q =>
        have hl : new.lookup k = some q.2 := by
          rw [← find?_key_eq_lookup, hf]; rfl
        simp [overwriteEntry, hf, List.lookup, hl]
      | none =>
        have hl : new.lookup k = none := by
          rw [← find?_key_eq_lookup, hf]; rfl
        simp [overwriteEntry, hf, List.lookup, hl]
    · have hb : (k == a) = false := by simp [h]
      cases hf : new.find? (fun q => q.1 == a) <;>
        simp [overwriteEntry, hf, List.lookup, hb, ih]

theorem any_key_false_of_lookup_none (k : String) :
    ∀ (old : List (String × String)), old.lookup k = none →
      old.any (fun p => p.1 == k) = false := by
  intro old
  induction old with
  | nil => intro _; rfl
  | cons p t ih =>
    intro h
    obtain ⟨a, b⟩ := p
    by_cases hb : k == a
    · simp [List.lookup, hb] at h
    · have ha : (a == k) = false := by rw [beq_comm_str]; simpa using hb
      simp only [List.lookup, hb] at h
      simp [ha, ih h]

theorem lookup_filter_other_keys (k : String)
    (old : List (String × String))
    (hany : old.any (fun p => p.1 == k) = false) :
    ∀ (new : List (String × String)),
      (new.filter (fun q => !(old.any (fun p => p.1 == q.1)))).lookup k =
        new.lookup k := by
  intro new
  induction new with
  | nil => rfl
  | cons q t ih =>
    obtain ⟨a, b⟩ := q
    by_cases hq : k == a
    · have ha : a = k := (eq_of_beq hq).symm
      have hkeep : (!(old.any (fun p => p.1 == a))) = true := by
        rw [ha, hany]; rfl
      simp [List.filter, hkeep, List.lookup, hq]
    · by_cases hkeep : (old.any (fun p => p.1 == a)) = true
      · simp [List.filter, hkeep, List.lookup, hq, ih]
      · simp [List.filter, hkeep, List.lookup, hq, ih]

theorem lookup_spreadExtras (k : String)
    (old new : List (String × String)) :
    (spreadExtras old new).lookup k = (new.lookup k).or (old.lookup k) := by
  unfold spreadExtras
  rw [lookup_append_or, lookup_map_overwrite]
  cases ho : old.lookup k with
  | some v => cases hn : new.lookup k <;> simp [Option.or]
  | none =>
    have hany := any_key_false_of_lookup_none k old ho
    rw [lookup_filter_other_keys k old hany new]
    cases hn : new.lookup k <;> simp [Option.or]

/-- C6: pushing an item whose `(pluginId, action)` pair matches an existing
entry replaces that entry in place by the spread-merge (same length, other
entries untouched, new item's fields overwriting the existing entry's
fields key-wise); pushing an item with no matching entry appends it and
grows the chain by one. -/
theorem pushToContextChain_merge_or_append (chain : List BaseContextItem)
    (item : BaseContextItem) :
    (∀ i old, findIndex (sameStepKey item) chain = some i →
      chain[i]? = some old →
      (pushToContextChainList chain item).length = chain.length ∧
      (pushToContextChainList chain item)[i]? = some (mergeItems old item) ∧
      (∀ j, j ≠ i → (pushToContextChainList chain item)[j]? = chain[j]?) ∧
      (mergeItems old item).content = item.content ∧
      (mergeItems old item).timestamp = item.timestamp ∧
      (∀ k, (mergeItems old item).extras.lookup k =
        ((item.extras.lookup k).or (old.extras.lookup k)))) ∧
    (findIndex (sameStepKey item) chain = none →
      pushToContextChainList chain item = chain ++ [item] ∧
      (pushToContextChainList chain item).length = chain.length + 1) := by
  constructor
  · intro i old hfi hgi
    have hlt : i < chain.length := findIndex_some_lt _ chain i hfi
    unfold pushToContextChainList
    simp only [hfi, hgi]
    refine ⟨List.length_set .., List.getElem?_set_eq hlt, ?_, rfl, rfl, ?_⟩
    · intro j hj
      exact List.getElem?_set_ne (Ne.symm hj)
    · intro k
      exact lookup_spreadExtras k old.extras item.extras
  · intro h
    unfold pushToContextChainList
    rw [h]
    exact ⟨rfl, by simp⟩

/-- Witness for C6: merging a second `("p","a")` item keeps the chain at
length one with the merged extras; a `("q","a")` item appends instead. -/
theorem pushToContextChain_merge_or_append_witness :
    (pushToContextChainList
        [⟨"id1", "p", "a", "t", "c1", 1, [("x", "1")]⟩]
        ⟨"id2", "p", "a", "t", "c2", 2, [("y", "2")]⟩).length = 1 ∧
    (pushToContextChainList
        [⟨"id1", "p", "a", "t", "c1", 1, [("x", "1")]⟩]
        ⟨"id3", "q", "a", "t", "c3", 3, []⟩).length = 2 := by
  constructor
  · exact ((pushToContextChain_merge_or_append
      [⟨"id1", "p", "a", "t", "c1", 1, [("x", "1")]⟩]
      ⟨"id2", "p", "a", "t", "c2", 2, [("y", "2")]⟩).1 0
      ⟨"id1", "p", "a", "t", "c1", 1, [("x", "1")]⟩ rfl rfl).1
  · exact ((pushToContextChain_merge_or_append
      [⟨"id1", "p", "a", "t", "c1", 1, [("x", "1")]⟩]
      ⟨"id3", "q", "a", "t", "c3", 3, []⟩).2 rfl).2

/-- C10: when no event is being processed (`this.context` is undefined),
`pushToContextChain` returns without raising and without any observable
effect — the item is dropped and the (absent) current context is
unchanged. -/
theorem pushToContextChain_noop_without_current (item : BaseContextItem) :
    pushToContextChainR none item = none :=
  rfl

/-! ## Model manager (`ModelManager`, managers/model/index.ts) -/

/-- The model manager's capability state.

`capabilityRegistry` — Modelled from the spec: the `CapabilityRegistry`
class (managers/model/capability) is not in the provided sources; per the
spec it "maps capability identifiers to the set of providers implementing
them", so `hasCapability` on it is membership in the set of capability ids
with at least one registered provider, which is what this list holds.
`capabilityAliases` is the `Map<string, string>` of the source. -/
structure ModelManagerM where
  capabilityRegistry : List String
  capabilityAliases : List (String × String)
deriving DecidableEq, Repr

/-- Alias resolution
`this.capabilityAliases.get(capabilityId) || capabilityId`. -/
def resolveCapability (mm : ModelManagerM) (capabilityId : String) : String :=
  (mm.capabilityAliases.lookup capabilityId).getD capabilityId

/-- `ModelManager.hasCapability`: resolve the alias, then ask the registry. -/
def hasCapability (mm : ModelManagerM) (capabilityId : String) : Bool :=
  mm.capabilityRegistry.contains (resolveCapability mm capabilityId)

/-- JavaScript `Map.prototype.set`: update in place if the key exists
(keeping insertion order), otherwise append. -/
def mapSet (m : List (String × String)) (k v : String) :
    List (String × String) :=
  if m.any (fun p => p.1 == k) then
    m.map (fun p => if p.1 == k then (k, v) else p)
  else m ++ [(k, v)]

/-- One iteration of the outer loop of
`ModelManager.registerCapabilityAliases`: pick the canonical id (the first
id of the group already backed by a capability, else the group's first id),
then register every other id of the group as an alias, throwing if the
canonical id is not in the capability registry. -/
def registerAliasGroup (mm : ModelManagerM) (aliasGroup : List String) :
    Except String ModelManagerM :=
  let canonicalId :=
    (aliasGroup.find? (fun id => hasCapability mm id)).getD
      (aliasGroup.headD "")
  aliasGroup.foldlM
    (fun acc aliasId =>
      if aliasId ≠ canonicalId then
        if !(acc.capabilityRegistry.contains canonicalId) then
          Except.error ("Capability " ++ canonicalId ++ " not found")
        else
          Except.ok { acc with
            capabilityAliases := mapSet acc.capabilityAliases aliasId canonicalId }
      else Except.ok acc)
    mm

/-- `ModelManager.registerCapabilityAliases(capabilityAliases)`. -/
def registerCapabilityAliases (mm : ModelManagerM)
    (capabilityAliases : List (List String)) : Except String ModelManagerM :=
  capabilityAliases.foldlM registerAliasGroup mm

/-- C7: registering the alias group `["a", "b"]` when the registry backs
`"b"` but not `"a"` (and no aliases exist yet) succeeds, resolves `"a"` to
`"b"`, and makes `hasCapability "a"` and `hasCapability "b"` both true and
equal. -/
theorem registerCapabilityAliases_resolves (a b : String)
    (caps : List String) (ha : caps.contains a = false)
    (hb : caps.contains b = true) :
    ∃ mm1, registerCapabilityAliases ⟨caps, []⟩ [[a, b]] = Except.ok mm1 ∧
      resolveCapability mm1 a = b ∧
      hasCapability mm1 a = true ∧
      hasCapability mm1 b = true ∧
      hasCapability mm1 a = hasCapability mm1 b := by
  have hab : a ≠ b := by
    intro h
    rw [h] at ha
    rw [ha] at hb
    cases hb
  have hba : ¬(b == a) := by
    intro h
    exact hab (eq_of_beq h).symm
  have hba2 : (b == a) = false := by
    cases h : (b == a)
    · rfl
    · exact absurd h hba
  have hres0 : ∀ c, resolveCapability ⟨caps, []⟩ c = c := fun c => rfl
  have hcap_a : hasCapability ⟨caps, []⟩ a = false := by
    unfold hasCapability
    rw [hres0]
    exact ha
  have hcap_b : hasCapability ⟨caps, []⟩ b = true := by
    unfold hasCapability
    rw [hres0]
    exact hb
  have hlook_a : List.lookup a [(a, b)] = some b := by
    simp [List.lookup]
  have hlook_b : List.lookup b [(a, b)] = none := by
    simp [List.lookup, hba2]
  have hresolve_a : resolveCapability ⟨caps, [(a, b)]⟩ a = b := by
    unfold resolveCapability
    rw [hlook_a]
    rfl
  have hcap1_a : hasCapability ⟨caps, [(a, b)]⟩ a = true := by
    unfold hasCapability
    rw [hresolve_a]
    exact hb
  have hcap1_b : hasCapability ⟨caps, [(a, b)]⟩ b = true := by
    unfold hasCapability resolveCapability
    rw [hlook_b]
    exact hb
  refine ⟨⟨caps, [(a, b)]⟩, ?_, hresolve_a, hcap1_a, hcap1_b,
    hcap1_a.trans hcap1_b.symm⟩
  have hgroup : registerAliasGroup ⟨caps, []⟩ [a, b] =
      Except.ok ⟨caps, [(a, b)]⟩ := by
    have hmem : b ∈ caps := by simpa using hb
    unfold registerAliasGroup
    simp [List.find?, List.foldlM, hcap_a, hcap_b, hab, hb, hmem, mapSet]
    rfl
  unfold registerCapabilityAliases
  simp [List.foldlM, hgroup]

/-- Witness for C7: alias group `["a", "b"]` over a registry backing only
`"b"`. -/
theorem registerCapabilityAliases_resolves_witness :
    ∃ mm1, registerCapabilityAliases ⟨["b"], []⟩ [["a", "b"]] =
        Except.ok mm1 ∧
      resolveCapability mm1 "a" = "b" ∧
      hasCapability mm1 "a" = true ∧
      hasCapability mm1 "b" = true ∧
      hasCapability mm1 "a" = hasCapability mm1 "b" :=
  registerCapabilityAliases_resolves "a" "b" ["b"] (by rfl) (by rfl)

/-! ## Runtime startup (`Runtime.init`) and provider lifecycle
(`ModelManager.init`, `ModelManager.checkHealth`) -/

/-- `TEXT_GENERATION_CAPABILITY` (capability/constants.ts). -/
def TEXT_GENERATION_CAPABILITY : String := "text-generation"

/-- `REQUIRED_CAPABILITIES = [TEXT_GENERATION_CAPABILITY]`. -/
def REQUIRED_CAPABILITIES : List String := [TEXT_GENERATION_CAPABILITY]

/-- The runtime instance produced by a successful `Runtime.init`. -/
structure RuntimeM where
  modelManager : ModelManagerM
  plugins : List PluginM

/-- A `for … of` loop whose body may `throw`: run `f` on each element in
order, stopping at the first error. -/
def forEachM (f : α → Except String Unit) : List α → Except String Unit
  | [] => Except.ok ()
  | x :: t =>
    match f x with
    | Except.ok _ => forEachM f t
    | Except.error e => Except.error e

/-- The `REQUIRED_CAPABILITIES` loop of `Runtime.init`: throw on the first
required capability no provider supplies (after alias resolution). -/
def checkRuntimeRequiredCapabilities (mm : ModelManagerM) :
    Except String Unit :=
  forEachM (fun capability =>
    if !(hasCapability mm capability) then
      Except.error (capability ++
        " capability by a model provider is required for core runtime operations")
    else Except.ok ()) REQUIRED_CAPABILITIES

/-- The plugin validation loop of `Runtime.init`: throw on the first plugin
required capability that no provider supplies. -/
def checkPluginRequiredCapabilities (mm : ModelManagerM)
    (plugins : List PluginM) : Except String Unit :=
  forEachM (fun plugin =>
    forEachM (fun capability =>
      if !(hasCapability mm capability) then
        Except.error ("plugin " ++ plugin.id ++
          " specified a required capability " ++ capability ++
          " that is not available")
      else Except.ok ()) plugin.requiredCapabilities) plugins

/-- `Runtime.init`: `pre` is the manager construction with provider init
and health checks that precede the capability checks, `mid` the memory and
plugin-registry initialization between them; a `Runtime` is only built when
everything succeeds. -/
def runtimeInit (pre mid : Except String Unit) (mm : ModelManagerM)
    (plugins : List PluginM) : Except String RuntimeM := do
  pre
  checkRuntimeRequiredCapabilities mm
  mid
  checkPluginRequiredCapabilities mm plugins
  Except.ok ⟨mm, plugins⟩

/-- `ModelManager.init`: each provider's `init()` is awaited inside a
`try/catch` whose `catch` only logs — a rejection is swallowed. -/
def modelManagerInitProviders (providers : List ModelProviderM) :
    Except String Unit :=
  forEachM (fun p =>
    match p.initResult with
    | Except.ok _ => Except.ok ()
    | Except.error _ => Except.ok ()) providers

/-- `ModelManager.checkHealth`: each provider's `checkHealth()` is awaited
inside a `try/catch` whose `catch` logs and re-throws. -/
def modelManagerCheckHealth (providers : List ModelProviderM) :
    Except String Unit :=
  forEachM (fun p =>
    match p.healthResult with
    | Except.ok _ => Except.ok ()
    | Except.error e => Except.error e) providers

theorem forEachM_error_of_mem {α : Type} (f : α → Except String Unit) :
    ∀ (l : List α), (∃ x ∈ l, ∃ e, f x = Except.error e) →
      ∃ e2, forEachM f l = Except.error e2 := by
  intro l
  induction l with
  | nil => rintro ⟨x, hx, _⟩; cases hx
  | cons y t ih =>
    rintro ⟨x, hx, e, hfx⟩
    cases hfy : f y with
    | error e2 => exact ⟨e2, by rw [forEachM, hfy]⟩
    | ok u =>
      rcases List.mem_cons.mp hx with rfl | hxt
      · rw [hfy] at hfx; cases hfx
      · obtain ⟨e3, h3⟩ := ih ⟨x, hxt, e, hfx⟩
        exact ⟨e3, by rw [forEachM, hfy, h3]⟩

theorem forEachM_error_mem {α : Type} (f : α → Except String Unit) :
    ∀ (l : List α) (e : String), forEachM f l = Except.error e →
      ∃ x ∈ l, f x = Except.error e := by
  intro l
  induction l with
  | nil => intro e h; cases h
  | cons y t ih =>
    intro e h
    rw [forEachM] at h
    cases hfy : f y with
    | error e2 =>
      rw [hfy] at h
      have he : e2 = e := by injection h
      exact ⟨y, List.mem_cons_self y t, by rw [hfy, he]⟩
    | ok u =>
      rw [hfy] at h
      obtain ⟨x, hxt, hfx⟩ := ih e h
      exact ⟨x, List.mem_cons_of_mem y hxt, hfx⟩

/-- C8: `Runtime.init` throws whenever, after alias resolution, no provider
supplies the text-generation capability, and whenever some plugin lists a
required capability that `hasCapability` rejects; in either case no
`Runtime` value is produced. -/
theorem runtimeInit_fails_without_capabilities (pre mid : Except String Unit)
    (mm : ModelManagerM) (plugins : List PluginM)
    (h : hasCapability mm TEXT_GENERATION_CAPABILITY = false ∨
      ∃ p ∈ plugins, ∃ c ∈ p.requiredCapabilities,
        hasCapability mm c = false) :
    ∃ e, runtimeInit pre mid mm plugins = Except.error e := by
  cases hpre : pre with
  | error e => exact ⟨e, by simp [runtimeInit, hpre]; rfl⟩
  | ok u =>
    cases hc1 : checkRuntimeRequiredCapabilities mm with
    | error e => exact ⟨e, by simp [runtimeInit, hpre, hc1]; rfl⟩
    | ok u1 =>
      cases hmid : mid with
      | error e => exact ⟨e, by simp [runtimeInit, hpre, hc1, hmid]; rfl⟩
      | ok u2 =>
        have htg : hasCapability mm TEXT_GENERATION_CAPABILITY = true := by
          cases htg2 : hasCapability mm TEXT_GENERATION_CAPABILITY
          · exfalso
            have hbad : ∃ e2, checkRuntimeRequiredCapabilities mm =
                Except.error e2 := by
              refine forEachM_error_of_mem _ REQUIRED_CAPABILITIES
                ⟨TEXT_GENERATION_CAPABILITY, List.mem_singleton_self _,
                  TEXT_GENERATION_CAPABILITY ++
                    " capability by a model provider is required for core runtime operations",
                  ?_⟩
              rw [htg2]
              rfl
            obtain ⟨e2, he2⟩ := hbad
            rw [hc1] at he2
            cases he2
          · rfl
        have hplug : ∃ p ∈ plugins, ∃ c ∈ p.requiredCapabilities,
            hasCapability mm c = false := by
          rcases h with h1 | h2
          · rw [htg] at h1; cases h1
          · exact h2
        obtain ⟨p, hp, c, hc, hcap⟩ := hplug
        have hinner : ∃ e2, forEachM
            (fun capability =>
              if !(hasCapability mm capability) then
                Except.error ("plugin " ++ p.id ++
                  " specified a required capability " ++ capability ++
                  " that is not available")
              else Except.ok ()) p.requiredCapabilities =
            Except.error e2 := by
          refine forEachM_error_of_mem _ _
            ⟨c, hc, "plugin " ++ p.id ++
              " specified a required capability " ++ c ++
              " that is not available", ?_⟩
          rw [hcap]
          rfl
        obtain ⟨e2, he2⟩ := hinner
        have houter : ∃ e3, checkPluginRequiredCapabilities mm plugins =
            Except.error e3 :=
          forEachM_error_of_mem _ plugins ⟨p, hp, ⟨e2, he2⟩⟩
        obtain ⟨e3, he3⟩ := houter
        exact ⟨e3, by simp [runtimeInit, hpre, hc1, hmid, he3]; rfl⟩

/-- Witness for C8: a runtime with no text-generation provider fails to
initialize. -/
theorem runtimeInit_fails_without_capabilities_witness :
    ∃ e, runtimeInit (Except.ok ()) (Except.ok ()) ⟨[], []⟩ [] =
      Except.error e :=
  runtimeInit_fails_without_capabilities (Except.ok ()) (Except.ok ())
    ⟨[], []⟩ [] (Or.inl rfl)

/-- C9: `ModelManager.init` always resolves — every provider `init()`
rejection is caught and only logged — while `ModelManager.checkHealth`
re-throws a provider health-check failure: the error it raises is some
provider's health failure, and it raises exactly when one exists.  Hence
only health-check failures, never provider init failures, can abort
startup. -/
theorem modelManagerInit_swallows_checkHealth_rethrows
    (providers : List ModelProviderM) :
    modelManagerInitProviders providers = Except.ok () ∧
    (∀ e, modelManagerCheckHealth providers = Except.error e →
      ∃ p ∈ providers, p.healthResult = Except.error e) ∧
    ((∃ p ∈ providers, ∃ e, p.healthResult = Except.error e) →
      ∃ e2, modelManagerCheckHealth providers = Except.error e2) := by
  refine ⟨?_, ?_, ?_⟩
  · induction providers with
    | nil => rfl
    | cons p t ih =>
      have hp : (match p.initResult with
          | Except.ok _ => Except.ok ()
          | Except.error _ => Except.ok ()) =
          (Except.ok () : Except String Unit) := by
        cases p.initResult <;> rfl
      rw [modelManagerInitProviders, forEachM, hp]
      exact ih
  · intro e h
    obtain ⟨p, hp, hfp⟩ := forEachM_error_mem _ providers e h
    refine ⟨p, hp, ?_⟩
    cases hh : p.healthResult with
    | ok u =>
      rw [hh] at hfp
      exact absurd ((rfl : (Except.ok () : Except String Unit) =
        Except.ok ()).trans hfp) (by intro hcon; cases hcon)
    | error e2 =>
      rw [hh] at hfp
      have hfp2 : (Except.error e2 : Except String Unit) =
        Except.error e := hfp
      have he : e2 = e := by injection hfp2
      rw [he]
  · rintro ⟨p, hp, e, he⟩
    exact forEachM_error_of_mem _ providers ⟨p, hp, ⟨e, by rw [he]⟩⟩

/-- Witness for C9: one provider whose `init()` rejects and whose health
check fails — `init` still resolves, `checkHealth` raises. -/
theorem modelManagerInit_swallows_checkHealth_rethrows_witness :
    modelManagerInitProviders
        [⟨"m", Except.error "init boom", Except.error "down"⟩] =
      Except.ok () ∧
    ∃ e2, modelManagerCheckHealth
        [⟨"m", Except.error "init boom", Except.error "down"⟩] =
      Except.error e2 := by
  constructor
  · exact (modelManagerInit_swallows_checkHealth_rethrows
      [⟨"m", Except.error "init boom", Except.error "down"⟩]).1
  · exact (modelManagerInit_swallows_checkHealth_rethrows
      [⟨"m", Except.error "init boom", Except.error "down"⟩]).2.2
      ⟨⟨"m", Except.error "init boom", Except.error "down"⟩,
        List.mem_singleton_self _, "down", rfl⟩

/-! ## Event queue and evaluation loop (`Runtime.runEvaluationLoop`,
`Runtime.queueInterface`)

The loop is concurrent with the trigger-side producers, so it is embedded
as a labelled transition system over the runtime's queue state.  Events are
identified by a `Nat` id.

- `enqueue e` — `this.eventQueue.push(fullContext)` inside
  `queueInterface.push`; producers may run this at any time, appending at
  the back of the array;
- `begin e` — one loop iteration's `this.eventQueue.shift()` followed
  synchronously (no intervening `await` that touches the queue) by
  `this.currentContext = context`; only enabled when the previous event has
  been cleared (`currentContext === undefined`) because the loop is the
  single consumer and processes one event per iteration;
- `work e` — any awaited processing step of the current event
  (`evaluatePipeline`, a plugin executor call inside `executePipeline`,
  persistence); steps only ever address `this.currentContext`;
- `finish e` — the `finally { this.currentContext = undefined; }` of the
  loop iteration. -/
inductive LoopAct where
  | enqueue (e : Nat)
  | begin (e : Nat)
  | work (e : Nat)
  | finish (e : Nat)
deriving DecidableEq, Repr

/-- The runtime's scheduler state: `pending` is `this.eventQueue` (a FIFO
array mutated only by `push` at the back and `shift` at the front),
`current` is `this.currentContext`, a single `Option`-valued slot. -/
structure LoopState where
  pending : List Nat
  current : Option Nat
deriving DecidableEq, Repr

/-- Small-step semantics of the queue plus evaluation loop. -/
inductive LoopStep : LoopState → LoopAct → LoopState → Prop where
  | enqueue (q : List Nat) (c : Option Nat) (e : Nat) :
      LoopStep ⟨q, c⟩ (LoopAct.enqueue e) ⟨q ++ [e], c⟩
  | begin (q : List Nat) (e : Nat) :
      LoopStep ⟨e :: q, none⟩ (LoopAct.begin e) ⟨q, some e⟩
  | work (q : List Nat) (e : Nat) :
      LoopStep ⟨q, some e⟩ (LoopAct.work e) ⟨q, some e⟩
  | finish (q : List Nat) (e : Nat) :
      LoopStep ⟨q, some e⟩ (LoopAct.finish e) ⟨q, none⟩

/-- A finite run of the system. -/
inductive LoopTrace : LoopState → List LoopAct → LoopState → Prop where
  | nil (s : LoopState) : LoopTrace s [] s
  | cons {s s1 s2 : LoopState} {a : LoopAct} {tr : List LoopAct} :
      LoopStep s a s1 → LoopTrace s1 tr s2 → LoopTrace s (a :: tr) s2

/-- The ids enqueued along a trace, in order. -/
def enqueuedIds (tr : List LoopAct) : List Nat :=
  tr.filterMap (fun a =>
    match a with
    | LoopAct.enqueue e => some e
    | _ => none)

/-- The ids whose processing began along a trace, in order. -/
def begunIds (tr : List LoopAct) : List Nat :=
  tr.filterMap (fun a =>
    match a with
    | LoopAct.begin e => some e
    | _ => none)

theorem loopTrace_queue_invariant :
    ∀ {s tr s1}, LoopTrace s tr s1 →
      s.pending ++ enqueuedIds tr = begunIds tr ++ s1.pending := by
  intro s tr s1 h
  induction h with
  | nil s => simp [enqueuedIds, begunIds]
  | @cons s s2 s3 a tr hstep htr ih =>
    cases hstep with
    | enqueue q c e =>
      simp only [enqueuedIds, begunIds, List.filterMap_cons] at ih ⊢
      simpa [List.append_assoc] using ih
    | begin q e =>
      simp only [enqueuedIds, begunIds, List.filterMap_cons] at ih ⊢
      simpa using ih
    | work q e =>
      simpa [enqueuedIds, begunIds, List.filterMap_cons] using ih
    | finish q e =>
      simpa [enqueuedIds, begunIds, List.filterMap_cons] using ih

theorem loopTrace_current_stable {e : Nat} :
    ∀ {s tr s1}, LoopTrace s tr s1 → s.current = some e →
      ¬(LoopAct.finish e) ∈ tr → s1.current = some e := by
  intro s tr s1 h
  induction h with
  | nil s => intro hc _; exact hc
  | @cons s s2 s3 a tr hstep htr ih =>
    intro hc hnmem
    have hnmem2 : ¬(LoopAct.finish e) ∈ tr := fun hm =>
      hnmem (List.mem_cons_of_mem _ hm)
    cases hstep with
    | enqueue q c e2 => exact ih (by simpa using hc) hnmem2
    | begin q e2 => exact absurd hc (by simp)
    | work q e2 => exact ih (by simpa using hc) hnmem2
    | finish q e2 =>
      have he : e2 = e := by simpa using hc
      subst he
      exact absurd (List.mem_cons_self _ _) hnmem

theorem loopTrace_cons_inv {s s2 : LoopState} {a : LoopAct}
    {tr : List LoopAct} (h : LoopTrace s (a :: tr) s2) :
    ∃ s1, LoopStep s a s1 ∧ LoopTrace s1 tr s2 := by
  cases h with
  | cons hstep htr => exact ⟨_, hstep, htr⟩

theorem loopTrace_append_split {s s2 : LoopState} (tr1 tr2 : List LoopAct)
    (h : LoopTrace s (tr1 ++ tr2) s2) :
    ∃ smid, LoopTrace s tr1 smid ∧ LoopTrace smid tr2 s2 := by
  induction tr1 generalizing s with
  | nil => exact ⟨s, LoopTrace.nil s, h⟩
  | cons a t ih =>
    obtain ⟨s1, hstep, htr⟩ := loopTrace_cons_inv h
    obtain ⟨m, h1, h2⟩ := ih htr
    exact ⟨m, LoopTrace.cons hstep h1, h2⟩

/-- C4: from the initial state the loop (i) begins events in FIFO enqueue
order — the sequence of begun ids is always a prefix of the sequence of
enqueued ids — and (ii) never interleaves two events' steps: a `work`
action occurring after `begin e` with no intervening `finish e` belongs to
`e` itself (the single `current` slot holds at most one event context at
any instant, by construction of `LoopState`). -/
theorem eventLoop_fifo_and_serial :
    (∀ tr s1, LoopTrace ⟨[], none⟩ tr s1 →
      ∃ rest, enqueuedIds tr = begunIds tr ++ rest) ∧
    (∀ (tr1 : List LoopAct) (e : Nat) (tr2 : List LoopAct) (e2 : Nat)
      (tr3 : List LoopAct) (s1 : LoopState),
      LoopTrace ⟨[], none⟩
        (tr1 ++ LoopAct.begin e :: (tr2 ++ LoopAct.work e2 :: tr3)) s1 →
      ¬(LoopAct.finish e) ∈ tr2 → e2 = e) := by
  constructor
  · intro tr s1 h
    have hinv := loopTrace_queue_invariant h
    exact ⟨s1.pending, by simpa using hinv⟩
  · intro tr1 e tr2 e2 tr3 s1 h hnmem
    obtain ⟨m1, _, h2⟩ := loopTrace_append_split tr1 _ h
    obtain ⟨sb, hbegin, htr2⟩ := loopTrace_cons_inv h2
    have hsb : sb.current = some e := by
      cases hbegin
      rfl
    obtain ⟨m2, h3, h4⟩ := loopTrace_append_split tr2 _ htr2
    have hm2 : m2.current = some e :=
      loopTrace_current_stable h3 hsb hnmem
    obtain ⟨sc, hwork, _⟩ := loopTrace_cons_inv h4
    cases hwork
    have h5 : some e2 = some e := hm2
    injection h5 with hee

/-- Witness for C4: a concrete run enqueuing events 1 and 2, processing 1
to completion and then beginning 2. -/
theorem eventLoop_fifo_and_serial_witness :
    (∃ rest,
      enqueuedIds [LoopAct.enqueue 1, LoopAct.enqueue 2, LoopAct.begin 1,
        LoopAct.work 1, LoopAct.finish 1, LoopAct.begin 2] =
      begunIds [LoopAct.enqueue 1, LoopAct.enqueue 2, LoopAct.begin 1,
        LoopAct.work 1, LoopAct.finish 1, LoopAct.begin 2] ++ rest) ∧
    (1 : Nat) = 1 := by
  have htrace : LoopTrace ⟨[], none⟩
      [LoopAct.enqueue 1, LoopAct.enqueue 2, LoopAct.begin 1,
        LoopAct.work 1, LoopAct.finish 1, LoopAct.begin 2]
      ⟨[], some 2⟩ :=
    LoopTrace.cons (LoopStep.enqueue [] none 1)
      (LoopTrace.cons (LoopStep.enqueue [1] none 2)
        (LoopTrace.cons (LoopStep.begin [2] 1)
          (LoopTrace.cons (LoopStep.work [2] 1)
            (LoopTrace.cons (LoopStep.finish [2] 1)
              (LoopTrace.cons (LoopStep.begin [] 2)
                (LoopTrace.nil ⟨[], some 2⟩))))))
  have htrace2 : LoopTrace ⟨[], none⟩
      ([LoopAct.enqueue 1, LoopAct.enqueue 2] ++ LoopAct.begin 1 ::
        ([] ++ LoopAct.work 1 :: [LoopAct.finish 1, LoopAct.begin 2]))
      ⟨[], some 2⟩ := htrace
  constructor
  · exact eventLoop_fifo_and_serial.1 _ _ htrace
  · exact eventLoop_fifo_and_serial.2 [LoopAct.enqueue 1, LoopAct.enqueue 2]
      1 [] 1 [LoopAct.finish 1, LoopAct.begin 2] ⟨[], some 2⟩ htrace2
      (by simp)

end Maiar
